import Mathlib

/-!
Verification of the context7 MCP server (context7_server.py) and its relay
(relay.py): a per-user stack of identified JSON values behind a single
dispatch entry point `handle_mcp_request`, plus a forwarding proxy that
strips inbound authorization headers.

The Python dictionaries are embedded as association lists with
first-match lookup and in-place update, which matches the observable
semantics of Python dict operations used by the server (membership,
indexing, `get`, `pop`, assignment). The identifier generator
`f"ctx_{str(uuid.uuid4())[:8]}"` draws a fresh random token per call; it
is modelled by a deterministic fresh-token stream driven by a counter
(`nextId`), reflecting the intended and spec-stated freshness of the
random tokens (collision probability negligible). JSON numbers are
modelled as integers; the store never inspects payloads beyond Python
truthiness, for which the integer model is exact on integral values.
-/

namespace Context7

mutual
/-- A JSON value as decoded by json.loads: null, booleans, numbers,
strings, arrays and objects. Numbers are modelled as integers. -/
inductive Json where
  | null : Json
  | bool (b : Bool) : Json
  | num (n : Int) : Json
  | str (s : String) : Json
  | arr (xs : JsonList) : Json
  | obj (fs : JsonFields) : Json
  deriving DecidableEq
/-- A list of JSON values (the contents of a JSON array). -/
inductive JsonList where
  | nil : JsonList
  | cons (hd : Json) (tl : JsonList) : JsonList
  deriving DecidableEq
/-- The fields of a JSON object, in order. -/
inductive JsonFields where
  | nil : JsonFields
  | fcons (k : String) (v : Json) (tl : JsonFields) : JsonFields
  deriving DecidableEq
end

/-- Converts a Lean list of JSON values into a JSON array body. -/
def JsonList.ofList : List Json → JsonList
  | [] => .nil
  | x :: xs => .cons x (JsonList.ofList xs)

/-- Python truthiness (`if not x:`) of a decoded JSON value: None, False,
zero, the empty string, the empty array and the empty object are falsy,
every other value is truthy. -/
def Json.isTruthy : Json → Bool
  | .null => false
  | .bool b => b
  | .num n => n != 0
  | .str s => !s.isEmpty
  | .arr .nil => false
  | .arr _ => true
  | .obj .nil => false
  | .obj _ => true

mutual
/-- Python repr of a decoded JSON value, used by str() inside f-strings
for non-string values (container elements always render with repr). -/
def pyRepr : Json → String
  | .null => "None"
  | .bool b => if b then "True" else "False"
  | .num n => toString n
  | .str s => "\x27" ++ s ++ "\x27"
  | .arr xs => "[" ++ pyReprList xs ++ "]"
  | .obj fs => "\x7b" ++ pyReprFields fs ++ "\x7d"
/-- Renders the comma-separated elements of a Python list repr. -/
def pyReprList : JsonList → String
  | .nil => ""
  | .cons x .nil => pyRepr x
  | .cons x tl => pyRepr x ++ ", " ++ pyReprList tl
/-- Renders the comma-separated entries of a Python dict repr. -/
def pyReprFields : JsonFields → String
  | .nil => ""
  | .fcons k v .nil => "\x27" ++ k ++ "\x27: " ++ pyRepr v
  | .fcons k v tl => "\x27" ++ k ++ "\x27: " ++ pyRepr v ++ ", " ++ pyReprFields tl
end

/-- Python str() of a decoded JSON value, as interpolated by f-strings:
a string renders bare, every other value renders with repr. -/
def pyStr : Json → String
  | .str s => s
  | j => pyRepr j

section Dict

variable {K V : Type} [DecidableEq K]

/-- First-match lookup in an association list, modelling Python
`d[k]` / `d.get(k)` on a dict whose keys are unique. -/
def dlookup : List (K × V) → K → Option V
  | [], _ => none
  | (k1, v) :: tl, k => if k1 = k then some v else dlookup tl k

/-- Membership test, modelling Python `k in d`. -/
def dcontains (d : List (K × V)) (k : K) : Bool :=
  (dlookup d k).isSome

/-- In-place update, modelling Python `d[k] = v`: replaces the value at
an existing key, otherwise appends the binding at the end. -/
def dset : List (K × V) → K → V → List (K × V)
  | [], k, v => [(k, v)]
  | (k1, v1) :: tl, k, v =>
      if k1 = k then (k, v) :: tl else (k1, v1) :: dset tl k v

/-- Key removal, modelling Python `del d[k]` / `d.pop(k, default)`:
removes the binding at the key, if any. -/
def derase : List (K × V) → K → List (K × V)
  | [], _ => []
  | (k1, v1) :: tl, k =>
      if k1 = k then tl else (k1, v1) :: derase tl k

/-- The keys of an association list, in order. -/
def dkeys (d : List (K × V)) : List K :=
  d.map Prod.fst

end Dict

/-- The fresh identifier minted by the n-th push over the life of the
process, modelling `f"ctx_{str(uuid.uuid4())[:8]}"`: the random token is
modelled by a deterministic fresh-token stream indexed by a global
counter, so distinct pushes mint distinct identifiers, which is the
spec-stated property of the random generator. -/
def mkId (n : Nat) : String :=
  String.mk ('c' :: 't' :: 'x' :: '_' :: List.replicate n 'f')

/-- The process-wide server state: the module-level dictionaries
`contexts` (user id, as supplied in the request, to a dict from context
id to stored value) and `context_stacks` (user id to the stack of
context ids, oldest first), plus the fresh-identifier counter that
models the uuid stream. -/
structure Store where
  contexts : List (Json × List (String × Json))
  context_stacks : List (Json × List String)
  nextId : Nat
  deriving DecidableEq

/-- The state at process start: both dictionaries empty. -/
def Store.empty : Store :=
  { contexts := [], context_stacks := [], nextId := 0 }

/-- First-match lookup among the fields of the decoded request body,
modelling `parameters.get(key)` (absent gives Python None). -/
def fieldsGet : JsonFields → String → Option Json
  | .nil, _ => none
  | .fcons k v tl, key => if k = key then some v else fieldsGet tl key

/-- The value of a request parameter, modelling `parameters.get(key)`:
the JSON null value stands for Python None when the key is absent. -/
def getParam (ps : JsonFields) (k : String) : Json :=
  (fieldsGet ps k).getD .null

/-- The stack of context ids of a user, modelling
`context_stacks[user_id]` totalised to the empty list for an absent
user (every access in the code is guarded by a membership test or an
initialisation). -/
def stackOf (st : Store) (u : Json) : List String :=
  (dlookup st.context_stacks u).getD []

/-- The context dictionary of a user, modelling `contexts[user_id]`
totalised to the empty dict for an absent user. -/
def innerOf (st : Store) (u : Json) : List (String × Json) :=
  (dlookup st.contexts u).getD []

/-- The error envelope returned for validation failures, unsupported
functions and malformed bodies. -/
def errResp (msg : String) : Json :=
  .obj (.fcons "error" (.str msg) .nil)

/-- The error envelope carrying an explicit success false marker,
returned by pop on an empty stack and by get on a missing context. -/
def errRespF (msg : String) : Json :=
  .obj (.fcons "error" (.str msg) (.fcons "success" (.bool false) .nil))

/-- The success envelope of push_context. -/
def pushOk (cid : String) : Json :=
  .obj (.fcons "context_id" (.str cid) (.fcons "success" (.bool true) .nil))

/-- The success envelope of pop_context. -/
def popOk (cid : String) (c : Json) : Json :=
  .obj (.fcons "context_id" (.str cid)
    (.fcons "context" c (.fcons "success" (.bool true) .nil)))

/-- The success envelope of get_context; the context_id field carries
the parameter value as supplied. -/
def getOk (cid : Json) (c : Json) : Json :=
  .obj (.fcons "context_id" cid
    (.fcons "context" c (.fcons "success" (.bool true) .nil)))

/-- The not-found envelope of get_context, with the interpolated
f-string message. -/
def notFoundResp (cid u : Json) : Json :=
  errRespF ("Context with id " ++ pyStr cid ++ " not found for user " ++ pyStr u)

/-- The envelope of list_contexts: the entries, with no success marker. -/
def listResp (entries : List Json) : Json :=
  .obj (.fcons "contexts" (.arr (JsonList.ofList entries)) .nil)

/-- The success envelope of clear_contexts. -/
def clearOk : Json :=
  .obj (.fcons "success" (.bool true) .nil)

/-- Lazy initialisation inside push_context: when the user is not yet a
key of `contexts`, both dictionaries gain an empty entry for the user. -/
def pushInit (u : Json) (st : Store) : Store :=
  if dcontains st.contexts u then st
  else
    { st with
      contexts := dset st.contexts u [],
      context_stacks := dset st.context_stacks u [] }

/-- The successful tail of push_context: mints a fresh identifier,
stores the value under it in the user dict and appends it to the stack. -/
def pushNew (u c : Json) (st : Store) : Json × Store :=
  (pushOk (mkId (pushInit u st).nextId),
   { contexts :=
       dset (pushInit u st).contexts u
         (dset (innerOf (pushInit u st) u) (mkId (pushInit u st).nextId) c),
     context_stacks :=
       dset (pushInit u st).context_stacks u
         (stackOf (pushInit u st) u ++ [mkId (pushInit u st).nextId]),
     nextId := (pushInit u st).nextId + 1 })

/-- The push_context branch of handle_mcp_request: validates user_id and
context by Python truthiness, then stores the value under a fresh id. -/
def push_context (ps : JsonFields) (st : Store) : Json × Store :=
  if !(getParam ps "user_id").isTruthy then
    (errResp "user_id parameter is required", st)
  else if !(getParam ps "context").isTruthy then
    (errResp "context parameter is required", st)
  else
    pushNew (getParam ps "user_id") (getParam ps "context") st

/-- The successful tail of pop_context: removes the last stack element
and its dict entry, returning both (the value totalised to null when the
dict entry is missing, matching `.pop(context_id, None)`). -/
def popTop (u : Json) (st : Store) : Json × Store :=
  (popOk ((stackOf st u).getLast?.getD "")
     ((dlookup (innerOf st u) ((stackOf st u).getLast?.getD "")).getD .null),
   { contexts :=
       dset st.contexts u (derase (innerOf st u) ((stackOf st u).getLast?.getD "")),
     context_stacks := dset st.context_stacks u (stackOf st u).dropLast,
     nextId := st.nextId })

/-- The pop_context branch of handle_mcp_request: validates user_id,
rejects an absent or empty stack, otherwise pops the top entry. -/
def pop_context (ps : JsonFields) (st : Store) : Json × Store :=
  if !(getParam ps "user_id").isTruthy then
    (errResp "user_id parameter is required", st)
  else if !(dcontains st.context_stacks (getParam ps "user_id"))
      || (stackOf st (getParam ps "user_id")).isEmpty then
    (errRespF "No contexts to pop", st)
  else
    popTop (getParam ps "user_id") st

/-- The entry objects assembled by list_contexts: one per stack element,
in stack order, with the stored value looked up in the user dict
(totalised to null, matching `.get(context_id)`); an absent user gives
the empty list. -/
def entriesFor (st : Store) (u : Json) : List Json :=
  if dcontains st.context_stacks u then
    (stackOf st u).map (fun cid =>
      Json.obj (.fcons "context_id" (.str cid)
        (.fcons "context" ((dlookup (innerOf st u) cid).getD .null) .nil)))
  else []

/-- The list_contexts branch of handle_mcp_request. -/
def list_contexts (ps : JsonFields) (st : Store) : Json × Store :=
  if !(getParam ps "user_id").isTruthy then
    (errResp "user_id parameter is required", st)
  else
    (listResp (entriesFor st (getParam ps "user_id")), st)

/-- Lookup of a context by the context_id parameter value: the stored
keys are the generated id strings, so a non-string parameter matches no
key, exactly as in Python where a non-string value is unequal to every
generated string key. -/
def jlookup (d : List (String × Json)) : Json → Option Json
  | .str s => dlookup d s
  | _ => none

/-- The get_context branch of handle_mcp_request: validates user_id and
context_id, then returns the stored value or the not-found envelope. -/
def get_context (ps : JsonFields) (st : Store) : Json × Store :=
  if !(getParam ps "user_id").isTruthy then
    (errResp "user_id parameter is required", st)
  else if !(getParam ps "context_id").isTruthy then
    (errResp "context_id parameter is required", st)
  else if !(dcontains st.contexts (getParam ps "user_id"))
      || !(jlookup (innerOf st (getParam ps "user_id")) (getParam ps "context_id")).isSome then
    (notFoundResp (getParam ps "context_id") (getParam ps "user_id"), st)
  else
    (getOk (getParam ps "context_id")
       ((jlookup (innerOf st (getParam ps "user_id")) (getParam ps "context_id")).getD .null),
     st)

/-- The state change of clear_contexts: when the user is a key of
`contexts`, both of its entries are reset to empty (the keys stay);
otherwise nothing happens. -/
def clearUser (u : Json) (st : Store) : Store :=
  if dcontains st.contexts u then
    { st with
      contexts := dset st.contexts u [],
      context_stacks := dset st.context_stacks u [] }
  else st

/-- The clear_contexts branch of handle_mcp_request: validates user_id,
then resets the user state and reports success unconditionally. -/
def clear_contexts (ps : JsonFields) (st : Store) : Json × Store :=
  if !(getParam ps "user_id").isTruthy then
    (errResp "user_id parameter is required", st)
  else
    (clearOk, clearUser (getParam ps "user_id") st)

/-- The dispatcher of handle_mcp_request: branches on the function name
and falls through to the unsupported-function envelope. -/
def handle (function_name : String) (parameters : JsonFields) (st : Store) :
    Json × Store :=
  if function_name = "push_context" then push_context parameters st
  else if function_name = "pop_context" then pop_context parameters st
  else if function_name = "list_contexts" then list_contexts parameters st
  else if function_name = "get_context" then get_context parameters st
  else if function_name = "clear_contexts" then clear_contexts parameters st
  else (errResp ("Function " ++ function_name ++ " not supported"), st)

/-- The full request handler: a body that fails to decode as JSON takes
the json.JSONDecodeError path before any dispatch; a decoded body (the
empty body decodes to the empty parameter object) is dispatched. -/
def handle_mcp_request (function_name : String) (body : Option JsonFields)
    (st : Store) : Json × Store :=
  match body with
  | some ps => handle function_name ps st
  | none => (errResp "Invalid JSON in request body", st)

/-- Runs a sequence of requests, each a function name with parameters,
threading the state. -/
def run : List (String × JsonFields) → Store → Store
  | [], st => st
  | (fn, ps) :: rest, st => run rest (handle fn ps st).2

/-- Runs a sequence of push_context requests for one user, one per
context value, threading the state. -/
def pushAll (u : Json) : List Json → Store → Store
  | [], st => st
  | c :: rest, st =>
      pushAll u rest (handle "push_context" (.fcons "user_id" u (.fcons "context" c .nil)) st).2

/-- The states reachable from the empty store by any sequence of
requests through the dispatcher. -/
inductive Reachable : Store → Prop where
  | base : Reachable Store.empty
  | step (fn : String) (ps : JsonFields) {st : Store} :
      Reachable st → Reachable (handle fn ps st).2

/-- The store invariant: per user, the stack has no duplicates and
matches the keys of the context dict as a set, the two outer
dictionaries have the same key set, every stacked id was minted by an
earlier push, and the context dict keys are unique. -/
def Inv (st : Store) : Prop :=
  (∀ u : Json, (stackOf st u).Nodup) ∧
  (∀ (u : Json) (cid : String), cid ∈ stackOf st u ↔ cid ∈ dkeys (innerOf st u)) ∧
  (∀ u : Json, dcontains st.contexts u = dcontains st.context_stacks u) ∧
  (∀ (u : Json) (cid : String), cid ∈ stackOf st u → ∃ k, k < st.nextId ∧ cid = mkId k) ∧
  (∀ u : Json, (dkeys (innerOf st u)).Nodup)

/-- Recognition of an error envelope: the first field of the JSON
object is the error message (every error return of the handler has this
shape, and no success return does). -/
def isErrorResp : Json → Bool
  | .obj (.fcons "error" _ _) => true
  | _ => false

/-- Lower-casing of a header name, character by character. -/
def lowerStr (s : String) : String :=
  String.mk (s.data.map Char.toLower)

/-- The request the relay sends upstream: target URL, header map and
body. -/
structure UpstreamRequest where
  url : String
  headers : List (String × String)
  body : String
  deriving DecidableEq

/-- The header-map transformation of the relay proxy: from the inbound
header dict, the authorization key is removed (the code deletes both the
lower-case spelling, which is the only one that can occur in the
ASGI-normalised header dict, and the capitalised spelling). -/
def stripAuthHeaders (hs : List (String × String)) : List (String × String) :=
  derase (derase hs "authorization") "Authorization"

/-- The relay proxy endpoint, modelling the forwarding in proxy of
relay.py: the upstream URL is the configured base plus the mcp path and
endpoint segment, the headers are the stripped inbound headers, and the
body is forwarded verbatim. -/
def proxy (upstreamUrl endpoint : String) (reqHeaders : List (String × String))
    (body : String) : UpstreamRequest :=
  { url := upstreamUrl ++ "/mcp/" ++ endpoint,
    headers := stripAuthHeaders reqHeaders,
    body := body }

section DictLemmas

variable {K V : Type} [DecidableEq K]

theorem dlookup_dset_self (d : List (K × V)) (k : K) (v : V) :
    dlookup (dset d k v) k = some v := by
  induction d with
  | nil => simp [dset, dlookup]
  | cons p tl ih =>
    obtain ⟨k1, v1⟩ := p
    by_cases h : k1 = k <;> simp [dset, dlookup, h, ih]

theorem dlookup_dset_ne (d : List (K × V)) {k k' : K} (v : V) (h : k' ≠ k) :
    dlookup (dset d k v) k' = dlookup d k' := by
  have h' : ¬ (k = k') := fun he => h he.symm
  induction d with
  | nil => simp [dset, dlookup, h']
  | cons p tl ih =>
    obtain ⟨k1, v1⟩ := p
    by_cases h1 : k1 = k
    · subst h1
      simp [dset, dlookup, h']
    · simp [dset, dlookup, h1, ih]

theorem dcontains_dset_self (d : List (K × V)) (k : K) (v : V) :
    dcontains (dset d k v) k = true := by
  simp [dcontains, dlookup_dset_self]

theorem dcontains_dset_ne (d : List (K × V)) {k k' : K} (v : V) (h : k' ≠ k) :
    dcontains (dset d k v) k' = dcontains d k' := by
  simp [dcontains, dlookup_dset_ne d v h]

theorem dlookup_eq_none_of_not_contains {d : List (K × V)} {k : K}
    (h : dcontains d k = false) : dlookup d k = none := by
  unfold dcontains at h
  cases hl : dlookup d k with
  | none => rfl
  | some v => rw [hl] at h; simp at h

omit [DecidableEq K] in
theorem dkeys_cons (k1 : K) (v1 : V) (tl : List (K × V)) :
    dkeys ((k1, v1) :: tl) = k1 :: dkeys tl := rfl

theorem dcontains_iff_mem_dkeys (d : List (K × V)) (k : K) :
    dcontains d k = true ↔ k ∈ dkeys d := by
  induction d with
  | nil => simp [dcontains, dlookup, dkeys]
  | cons p tl ih =>
    obtain ⟨k1, v1⟩ := p
    rw [dkeys_cons, List.mem_cons]
    by_cases h : k1 = k
    · subst h
      simp [dcontains, dlookup]
    · have h' : ¬ (k = k1) := fun he => h he.symm
      simp only [dcontains, dlookup, if_neg h] at ih ⊢
      constructor
      · intro hs
        exact Or.inr (ih.mp hs)
      · rintro (he | hm)
        · exact absurd he h'
        · exact ih.mpr hm

theorem mem_dkeys_dset (d : List (K × V)) (k k' : K) (v : V) :
    k' ∈ dkeys (dset d k v) ↔ k' = k ∨ k' ∈ dkeys d := by
  induction d with
  | nil => simp [dset, dkeys]
  | cons p tl ih =>
    obtain ⟨k1, v1⟩ := p
    by_cases h : k1 = k
    · subst h
      rw [show dset ((k1, v1) :: tl) k1 v = (k1, v) :: tl from by simp [dset],
        dkeys_cons, dkeys_cons, List.mem_cons]
      tauto
    · rw [show dset ((k1, v1) :: tl) k v = (k1, v1) :: dset tl k v from by simp [dset, h],
        dkeys_cons, dkeys_cons, List.mem_cons, List.mem_cons]
      rw [ih]
      tauto

theorem dkeys_nodup_dset (d : List (K × V)) (k : K) (v : V)
    (h : (dkeys d).Nodup) : (dkeys (dset d k v)).Nodup := by
  induction d with
  | nil => simp [dset, dkeys]
  | cons p tl ih =>
    obtain ⟨k1, v1⟩ := p
    rw [dkeys_cons, List.nodup_cons] at h
    by_cases h1 : k1 = k
    · subst h1
      rw [show dset ((k1, v1) :: tl) k1 v = (k1, v) :: tl from by simp [dset],
        dkeys_cons, List.nodup_cons]
      exact h
    · rw [show dset ((k1, v1) :: tl) k v = (k1, v1) :: dset tl k v from by simp [dset, h1],
        dkeys_cons, List.nodup_cons]
      refine ⟨?_, ih h.2⟩
      rw [mem_dkeys_dset]
      rintro (he | hm)
      · exact h1 he
      · exact h.1 hm

theorem mem_of_mem_derase {d : List (K × V)} {k : K} {p : K × V}
    (h : p ∈ derase d k) : p ∈ d := by
  induction d with
  | nil => simp [derase] at h
  | cons q tl ih =>
    obtain ⟨k1, v1⟩ := q
    by_cases h1 : k1 = k
    · simp [derase, h1] at h
      simp [h]
    · simp [derase, h1] at h
      rcases h with h | h
      · simp [h]
      · simp [ih h]

theorem mem_derase_of_ne {d : List (K × V)} {k : K} {p : K × V}
    (hp : p ∈ d) (h : p.1 ≠ k) : p ∈ derase d k := by
  induction d with
  | nil => simp at hp
  | cons q tl ih =>
    obtain ⟨k1, v1⟩ := q
    rcases List.mem_cons.mp hp with h1 | h1
    · have hk1 : k1 ≠ k := by
        subst h1
        exact h
      simp [derase, hk1, h1]
    · by_cases hk1 : k1 = k
      · simpa [derase, hk1] using h1
      · simp [derase, hk1, ih h1]

theorem mem_dkeys_of_mem_dkeys_derase {d : List (K × V)} {k k' : K}
    (h : k' ∈ dkeys (derase d k)) : k' ∈ dkeys d := by
  induction d with
  | nil => simp [derase, dkeys] at h
  | cons q tl ih =>
    obtain ⟨k1, v1⟩ := q
    by_cases h1 : k1 = k
    · rw [show derase ((k1, v1) :: tl) k = tl from by simp [derase, h1]] at h
      rw [dkeys_cons, List.mem_cons]
      exact Or.inr h
    · rw [show derase ((k1, v1) :: tl) k = (k1, v1) :: derase tl k from by
        simp [derase, h1], dkeys_cons, List.mem_cons] at h
      rw [dkeys_cons, List.mem_cons]
      rcases h with h | h
      · exact Or.inl h
      · exact Or.inr (ih h)

theorem mem_dkeys_derase {d : List (K × V)} (h : (dkeys d).Nodup) (k k' : K) :
    k' ∈ dkeys (derase d k) ↔ k' ∈ dkeys d ∧ k' ≠ k := by
  induction d with
  | nil => simp [derase, dkeys]
  | cons q tl ih =>
    obtain ⟨k1, v1⟩ := q
    rw [dkeys_cons, List.nodup_cons] at h
    have ih2 := ih h.2
    by_cases h1 : k1 = k
    · subst h1
      rw [show derase ((k1, v1) :: tl) k1 = tl from by simp [derase],
        dkeys_cons, List.mem_cons]
      constructor
      · intro hm
        refine ⟨Or.inr hm, ?_⟩
        intro he
        subst he
        exact h.1 hm
      · rintro ⟨hm | hm, hne⟩
        · exact absurd hm hne
        · exact hm
    · rw [show derase ((k1, v1) :: tl) k = (k1, v1) :: derase tl k from by
        simp [derase, h1], dkeys_cons, dkeys_cons, List.mem_cons, List.mem_cons]
      rw [ih2]
      constructor
      · rintro (he | ⟨hm, hne⟩)
        · subst he
          exact ⟨Or.inl rfl, fun hk => h1 hk⟩
        · exact ⟨Or.inr hm, hne⟩
      · rintro ⟨he | hm, hne⟩
        · exact Or.inl he
        · exact Or.inr ⟨hm, hne⟩

theorem dkeys_nodup_derase {d : List (K × V)} (k : K)
    (h : (dkeys d).Nodup) : (dkeys (derase d k)).Nodup := by
  induction d with
  | nil => simpa [derase] using h
  | cons q tl ih =>
    obtain ⟨k1, v1⟩ := q
    rw [dkeys_cons, List.nodup_cons] at h
    by_cases h1 : k1 = k
    · rw [show derase ((k1, v1) :: tl) k = tl from by simp [derase, h1]]
      exact h.2
    · rw [show derase ((k1, v1) :: tl) k = (k1, v1) :: derase tl k from by
        simp [derase, h1], dkeys_cons, List.nodup_cons]
      refine ⟨?_, ih h.2⟩
      intro hm
      exact h.1 (mem_dkeys_of_mem_dkeys_derase hm)

theorem dset_dset_same (d : List (K × V)) (k : K) (v w : V) :
    dset (dset d k v) k w = dset d k w := by
  induction d with
  | nil => simp [dset]
  | cons p tl ih =>
    obtain ⟨k1, v1⟩ := p
    by_cases h : k1 = k <;> simp [dset, h, ih]

end DictLemmas

theorem handle_push (ps : JsonFields) (st : Store) :
    handle "push_context" ps st = push_context ps st := rfl

theorem handle_pop (ps : JsonFields) (st : Store) :
    handle "pop_context" ps st = pop_context ps st := rfl

theorem handle_list (ps : JsonFields) (st : Store) :
    handle "list_contexts" ps st = list_contexts ps st := rfl

theorem handle_get (ps : JsonFields) (st : Store) :
    handle "get_context" ps st = get_context ps st := rfl

theorem handle_clear (ps : JsonFields) (st : Store) :
    handle "clear_contexts" ps st = clear_contexts ps st := rfl

theorem getParam_uc_user (u c : Json) :
    getParam (.fcons "user_id" u (.fcons "context" c .nil)) "user_id" = u := rfl

theorem getParam_uc_ctx (u c : Json) :
    getParam (.fcons "user_id" u (.fcons "context" c .nil)) "context" = c := rfl

theorem getParam_u_user (u : Json) :
    getParam (.fcons "user_id" u .nil) "user_id" = u := rfl

theorem getParam_ucid_user (u cid : Json) :
    getParam (.fcons "user_id" u (.fcons "context_id" cid .nil)) "user_id" = u := rfl

theorem getParam_ucid_cid (u cid : Json) :
    getParam (.fcons "user_id" u (.fcons "context_id" cid .nil)) "context_id" = cid := rfl

theorem mkId_inj {m n : Nat} (h : mkId m = mkId n) : m = n := by
  have h2 : ('c' :: 't' :: 'x' :: '_' :: List.replicate m 'f')
      = ('c' :: 't' :: 'x' :: '_' :: List.replicate n 'f') := by
    injection h
  have h3 : List.replicate m 'f' = List.replicate n 'f' := by
    simpa using h2
  have := congrArg List.length h3
  simpa using this

theorem pushInit_nextId (u : Json) (st : Store) :
    (pushInit u st).nextId = st.nextId := by
  unfold pushInit
  split <;> rfl

theorem pushInit_contexts_contains (u : Json) (st : Store) :
    dcontains (pushInit u st).contexts u = true := by
  by_cases h : dcontains st.contexts u = true
  · simp [pushInit, h]
  · simp only [Bool.not_eq_true] at h
    simp [pushInit, h, dcontains_dset_self]

theorem stackOf_pushInit_ne (u : Json) (st : Store) {u' : Json} (h : u' ≠ u) :
    stackOf (pushInit u st) u' = stackOf st u' := by
  unfold pushInit
  split
  · rfl
  · simp [stackOf, dlookup_dset_ne _ _ h]

theorem innerOf_pushInit_ne (u : Json) (st : Store) {u' : Json} (h : u' ≠ u) :
    innerOf (pushInit u st) u' = innerOf st u' := by
  unfold pushInit
  split
  · rfl
  · simp [innerOf, dlookup_dset_ne _ _ h]

theorem innerOf_pushInit_self (u : Json) (st : Store) :
    innerOf (pushInit u st) u = innerOf st u := by
  by_cases h : dcontains st.contexts u = true
  · simp [pushInit, h]
  · simp only [Bool.not_eq_true] at h
    simp [pushInit, h, innerOf, dlookup_dset_self,
      dlookup_eq_none_of_not_contains h]

theorem stackOf_pushInit_self (u : Json) (st : Store)
    (hcu : dcontains st.contexts u = dcontains st.context_stacks u) :
    stackOf (pushInit u st) u = stackOf st u := by
  by_cases h : dcontains st.contexts u = true
  · simp [pushInit, h]
  · simp only [Bool.not_eq_true] at h
    have hs : dcontains st.context_stacks u = false := hcu ▸ h
    simp [pushInit, h, stackOf, dlookup_dset_self,
      dlookup_eq_none_of_not_contains hs]

theorem stackOf_pushInit_contains (u : Json) (st : Store)
    (hcu : dcontains st.contexts u = dcontains st.context_stacks u) :
    dcontains (pushInit u st).context_stacks u = true := by
  by_cases h : dcontains st.contexts u = true
  · simp [pushInit, h, ← hcu]
  · simp only [Bool.not_eq_true] at h
    simp [pushInit, h, dcontains_dset_self]

theorem push_context_eq (ps : JsonFields) (st : Store)
    (hu : (getParam ps "user_id").isTruthy = true)
    (hc : (getParam ps "context").isTruthy = true) :
    push_context ps st = pushNew (getParam ps "user_id") (getParam ps "context") st := by
  simp [push_context, hu, hc]

theorem pushNew_fst (u c : Json) (st : Store) :
    (pushNew u c st).1 = pushOk (mkId st.nextId) := by
  simp [pushNew, pushInit_nextId]

theorem pushNew_nextId (u c : Json) (st : Store) :
    (pushNew u c st).2.nextId = st.nextId + 1 := by
  simp [pushNew, pushInit_nextId]

theorem stackOf_pushNew_self (u c : Json) (st : Store) :
    stackOf (pushNew u c st).2 u = stackOf (pushInit u st) u ++ [mkId st.nextId] := by
  simp [pushNew, stackOf, dlookup_dset_self, pushInit_nextId]

theorem innerOf_pushNew_self (u c : Json) (st : Store) :
    innerOf (pushNew u c st).2 u
      = dset (innerOf (pushInit u st) u) (mkId st.nextId) c := by
  simp [pushNew, innerOf, dlookup_dset_self, pushInit_nextId]

theorem stackOf_pushNew_ne (u c : Json) (st : Store) {u' : Json} (h : u' ≠ u) :
    stackOf (pushNew u c st).2 u' = stackOf st u' := by
  calc stackOf (pushNew u c st).2 u' = stackOf (pushInit u st) u' := by
        simp [pushNew, stackOf, dlookup_dset_ne _ _ h]
    _ = stackOf st u' := stackOf_pushInit_ne u st h

theorem innerOf_pushNew_ne (u c : Json) (st : Store) {u' : Json} (h : u' ≠ u) :
    innerOf (pushNew u c st).2 u' = innerOf st u' := by
  calc innerOf (pushNew u c st).2 u' = innerOf (pushInit u st) u' := by
        simp [pushNew, innerOf, dlookup_dset_ne _ _ h]
    _ = innerOf st u' := innerOf_pushInit_ne u st h

theorem pushNew_contains_eq (u c : Json) (st : Store) (u' : Json)
    (hcu : dcontains st.contexts u' = dcontains st.context_stacks u') :
    dcontains (pushNew u c st).2.contexts u'
      = dcontains (pushNew u c st).2.context_stacks u' := by
  by_cases h : u' = u
  · subst h
    simp [pushNew, dcontains_dset_self]
  · simp only [pushNew]
    rw [dcontains_dset_ne _ _ h, dcontains_dset_ne _ _ h]
    unfold pushInit
    split
    · exact hcu
    · rw [dcontains_dset_ne _ _ h, dcontains_dset_ne _ _ h]
      exact hcu

theorem popTop_eq (u : Json) (st : Store) (s : List String) (x : String)
    (hs : stackOf st u = s ++ [x]) :
    popTop u st = (popOk x ((dlookup (innerOf st u) x).getD .null),
      { contexts := dset st.contexts u (derase (innerOf st u) x),
        context_stacks := dset st.context_stacks u s,
        nextId := st.nextId }) := by
  simp [popTop, hs, List.getLast?_concat, List.dropLast_concat]

theorem stackOf_contains_of_ne_nil {st : Store} {u : Json}
    (h : stackOf st u ≠ []) : dcontains st.context_stacks u = true := by
  unfold stackOf at h
  cases hl : dlookup st.context_stacks u with
  | none => rw [hl] at h; simp at h
  | some s => simp [dcontains, hl]

theorem innerOf_contains_of_jlookup {st : Store} {u cid : Json} {v : Json}
    (h : jlookup (innerOf st u) cid = some v) : dcontains st.contexts u = true := by
  by_cases hc : dcontains st.contexts u = true
  · exact hc
  · simp only [Bool.not_eq_true] at hc
    have : innerOf st u = [] := by
      simp [innerOf, dlookup_eq_none_of_not_contains hc]
    rw [this] at h
    cases cid <;> simp [jlookup, dlookup] at h

theorem pop_context_success (ps : JsonFields) (st : Store) (s : List String) (x : String)
    (hu : (getParam ps "user_id").isTruthy = true)
    (hs : stackOf st (getParam ps "user_id") = s ++ [x]) :
    pop_context ps st = popTop (getParam ps "user_id") st := by
  have hne : stackOf st (getParam ps "user_id") ≠ [] := by
    rw [hs]
    simp
  have hcont := stackOf_contains_of_ne_nil hne
  have hempty : (stackOf st (getParam ps "user_id")).isEmpty = false := by
    rw [hs]
    cases s <;> rfl
  simp [pop_context, hu, hcont, hempty]

theorem pop_context_empty (ps : JsonFields) (st : Store)
    (hu : (getParam ps "user_id").isTruthy = true)
    (h : dcontains st.context_stacks (getParam ps "user_id") = false
      ∨ stackOf st (getParam ps "user_id") = []) :
    pop_context ps st = (errRespF "No contexts to pop", st) := by
  rcases h with h | h
  · simp [pop_context, hu, h]
  · by_cases hc : dcontains st.context_stacks (getParam ps "user_id") = true
    · simp [pop_context, hu, hc, h]
    · simp only [Bool.not_eq_true] at hc
      simp [pop_context, hu, hc]

theorem list_contexts_eq (ps : JsonFields) (st : Store)
    (hu : (getParam ps "user_id").isTruthy = true) :
    list_contexts ps st = (listResp (entriesFor st (getParam ps "user_id")), st) := by
  simp [list_contexts, hu]

theorem list_contexts_state (ps : JsonFields) (st : Store) :
    (list_contexts ps st).2 = st := by
  unfold list_contexts
  split <;> rfl

theorem get_context_state (ps : JsonFields) (st : Store) :
    (get_context ps st).2 = st := by
  unfold get_context
  split
  · rfl
  · split
    · rfl
    · split <;> rfl

theorem pop_context_nextId (ps : JsonFields) (st : Store) :
    (pop_context ps st).2.nextId = st.nextId := by
  unfold pop_context
  split
  · rfl
  · split
    · rfl
    · rfl

theorem clearUser_nextId (u : Json) (st : Store) :
    (clearUser u st).nextId = st.nextId := by
  unfold clearUser
  split <;> rfl

theorem clear_contexts_nextId (ps : JsonFields) (st : Store) :
    (clear_contexts ps st).2.nextId = st.nextId := by
  unfold clear_contexts
  split
  · rfl
  · simp [clearUser_nextId]

theorem push_context_nextId_le (ps : JsonFields) (st : Store) :
    st.nextId ≤ (push_context ps st).2.nextId := by
  unfold push_context
  split
  · exact Nat.le_refl _
  · split
    · exact Nat.le_refl _
    · rw [pushNew_nextId]
      exact Nat.le_succ _

theorem handle_nextId_le (fn : String) (ps : JsonFields) (st : Store) :
    st.nextId ≤ (handle fn ps st).2.nextId := by
  unfold handle
  split
  · exact push_context_nextId_le ps st
  · split
    · rw [pop_context_nextId]
    · split
      · rw [list_contexts_state]
      · split
        · rw [get_context_state]
        · split
          · rw [clear_contexts_nextId]
          · exact Nat.le_refl _

theorem run_nextId_le (ops : List (String × JsonFields)) (st : Store) :
    st.nextId ≤ (run ops st).nextId := by
  induction ops generalizing st with
  | nil => exact Nat.le_refl _
  | cons op rest ih =>
    obtain ⟨fn, ps⟩ := op
    exact Nat.le_trans (handle_nextId_le fn ps st) (ih _)

theorem push_context_fst_pushOk {ps : JsonFields} {st : Store} {x : String}
    (h : (push_context ps st).1 = pushOk x) :
    x = mkId st.nextId ∧ (push_context ps st).2.nextId = st.nextId + 1
      ∧ (getParam ps "user_id").isTruthy = true
      ∧ (getParam ps "context").isTruthy = true := by
  by_cases h1 : (getParam ps "user_id").isTruthy = true
  · by_cases h2 : (getParam ps "context").isTruthy = true
    · rw [push_context_eq ps st h1 h2] at h ⊢
      rw [pushNew_fst] at h
      simp [pushOk] at h
      exact ⟨h.symm, pushNew_nextId _ _ _, h1, h2⟩
    · simp only [Bool.not_eq_true] at h2
      simp [push_context, h1, h2, errResp, pushOk] at h
  · simp only [Bool.not_eq_true] at h1
    simp [push_context, h1, errResp, pushOk] at h

theorem inv_empty : Inv Store.empty := by
  refine ⟨?_, ?_, ?_, ?_, ?_⟩
  · intro u
    simp [stackOf, Store.empty, dlookup]
  · intro u cid
    simp [stackOf, innerOf, Store.empty, dlookup, dkeys]
  · intro u
    rfl
  · intro u cid hmem
    simp [stackOf, Store.empty, dlookup] at hmem
  · intro u
    simp [innerOf, Store.empty, dlookup, dkeys]

theorem inv_reset (u : Json) {st : Store} (hInv : Inv st) :
    Inv { st with
      contexts := dset st.contexts u [],
      context_stacks := dset st.context_stacks u [] } := by
  obtain ⟨h1, h2, h3, h4, h5⟩ := hInv
  refine ⟨?_, ?_, ?_, ?_, ?_⟩
  · intro u'
    by_cases h : u' = u
    · subst h
      simp [stackOf, dlookup_dset_self]
    · simp only [stackOf]
      simp only [dlookup_dset_ne _ _ h]
      exact h1 u'
  · intro u' cid
    by_cases h : u' = u
    · subst h
      simp [stackOf, innerOf, dlookup_dset_self, dkeys]
    · simp only [stackOf, innerOf]
      simp only [dlookup_dset_ne _ _ h]
      exact h2 u' cid
  · intro u'
    by_cases h : u' = u
    · subst h
      simp [dcontains_dset_self]
    · simp only [dcontains_dset_ne _ _ h]
      exact h3 u'
  · intro u' cid hmem
    by_cases h : u' = u
    · subst h
      simp [stackOf, dlookup_dset_self] at hmem
    · simp only [stackOf] at hmem
      simp only [dlookup_dset_ne _ _ h] at hmem
      exact h4 u' cid hmem
  · intro u'
    by_cases h : u' = u
    · subst h
      simp [innerOf, dlookup_dset_self, dkeys]
    · simp only [innerOf]
      simp only [dlookup_dset_ne _ _ h]
      exact h5 u'

theorem inv_pushInit (u : Json) {st : Store} (hInv : Inv st) :
    Inv (pushInit u st) := by
  unfold pushInit
  split
  · exact hInv
  · exact inv_reset u hInv

theorem inv_clearUser (u : Json) {st : Store} (hInv : Inv st) :
    Inv (clearUser u st) := by
  unfold clearUser
  split
  · exact inv_reset u hInv
  · exact hInv

theorem inv_pushNew (u c : Json) {st : Store} (hInv : Inv st) :
    Inv (pushNew u c st).2 := by
  have g3 := hInv.2.2.1
  obtain ⟨h1, h2, h3, h4, h5⟩ := inv_pushInit u hInv
  have hfresh : mkId st.nextId ∉ stackOf (pushInit u st) u := by
    intro hmem
    obtain ⟨k, hk, he⟩ := h4 u _ hmem
    rw [pushInit_nextId] at hk
    have : st.nextId = k := mkId_inj he
    omega
  refine ⟨?_, ?_, ?_, ?_, ?_⟩
  · intro u'
    by_cases h : u' = u
    · rw [h]
      rw [stackOf_pushNew_self, List.nodup_append]
      refine ⟨h1 u, List.nodup_singleton _, ?_⟩
      intro a ha hax
      rw [List.mem_singleton] at hax
      subst hax
      exact hfresh ha
    · rw [stackOf_pushNew_ne u c st h]
      have := h1 u'
      rwa [stackOf_pushInit_ne u st h] at this
  · intro u' cid
    by_cases h : u' = u
    · rw [h]
      rw [stackOf_pushNew_self, innerOf_pushNew_self,
        List.mem_append, List.mem_singleton, mem_dkeys_dset]
      rw [h2 u cid]
      tauto
    · rw [stackOf_pushNew_ne u c st h, innerOf_pushNew_ne u c st h]
      have := h2 u' cid
      rwa [stackOf_pushInit_ne u st h, innerOf_pushInit_ne u st h] at this
  · intro u'
    exact pushNew_contains_eq u c st u' (g3 u')
  · intro u' cid hmem
    rw [pushNew_nextId]
    by_cases h : u' = u
    · rw [h] at hmem
      rw [stackOf_pushNew_self] at hmem
      rcases List.mem_append.mp hmem with hm | hm
      · obtain ⟨k, hk, he⟩ := h4 u cid hm
        rw [pushInit_nextId] at hk
        exact ⟨k, by omega, he⟩
      · rw [List.mem_singleton] at hm
        exact ⟨st.nextId, by omega, hm⟩
    · rw [stackOf_pushNew_ne u c st h] at hmem
      have hm2 : cid ∈ stackOf (pushInit u st) u' := by
        rw [stackOf_pushInit_ne u st h]
        exact hmem
      obtain ⟨k, hk, he⟩ := h4 u' cid hm2
      rw [pushInit_nextId] at hk
      exact ⟨k, by omega, he⟩
  · intro u'
    by_cases h : u' = u
    · rw [h]
      rw [innerOf_pushNew_self]
      exact dkeys_nodup_dset _ _ _ (h5 u)
    · rw [innerOf_pushNew_ne u c st h]
      have := h5 u'
      rwa [innerOf_pushInit_ne u st h] at this

theorem inv_popTop (u : Json) {st : Store} (s : List String) (x : String)
    (hs : stackOf st u = s ++ [x]) (hInv : Inv st) : Inv (popTop u st).2 := by
  rw [popTop_eq u st s x hs]
  obtain ⟨h1, h2, h3, h4, h5⟩ := hInv
  have hnodup := h1 u
  rw [hs, List.nodup_append] at hnodup
  have hxs : x ∉ s := by
    intro hx
    exact hnodup.2.2 hx (List.mem_singleton.mpr rfl)
  refine ⟨?_, ?_, ?_, ?_, ?_⟩
  · intro u'
    by_cases h : u' = u
    · rw [h]
      simp only [stackOf, dlookup_dset_self, Option.getD_some]
      exact hnodup.1
    · simp only [stackOf]
      simp only [dlookup_dset_ne _ _ h]
      exact h1 u'
  · intro u' cid
    by_cases h : u' = u
    · rw [h]
      simp only [stackOf, innerOf, dlookup_dset_self, Option.getD_some]
      have h5u := h5 u
      simp only [innerOf] at h5u
      rw [mem_dkeys_derase h5u]
      have hbase := h2 u cid
      simp only [innerOf] at hbase
      rw [hs, List.mem_append, List.mem_singleton] at hbase
      constructor
      · intro hcid
        refine ⟨hbase.mp (Or.inl hcid), ?_⟩
        intro he
        subst he
        exact hxs hcid
      · rintro ⟨hk, hne⟩
        rcases hbase.mpr hk with hm | hm
        · exact hm
        · exact absurd hm hne
    · simp only [stackOf, innerOf]
      simp only [dlookup_dset_ne _ _ h]
      exact h2 u' cid
  · intro u'
    by_cases h : u' = u
    · rw [h]
      simp [dcontains_dset_self]
    · simp only [dcontains_dset_ne _ _ h]
      exact h3 u'
  · intro u' cid hmem
    by_cases h : u' = u
    · rw [h] at hmem
      simp only [stackOf, dlookup_dset_self, Option.getD_some] at hmem
      exact h4 u cid (by rw [hs, List.mem_append]; exact Or.inl hmem)
    · simp only [stackOf] at hmem
      simp only [dlookup_dset_ne _ _ h] at hmem
      exact h4 u' cid hmem
  · intro u'
    by_cases h : u' = u
    · rw [h]
      simp only [innerOf, dlookup_dset_self, Option.getD_some]
      exact dkeys_nodup_derase _ (h5 u)
    · simp only [innerOf]
      simp only [dlookup_dset_ne _ _ h]
      exact h5 u'

theorem inv_pop_context (ps : JsonFields) {st : Store} (hInv : Inv st) :
    Inv (pop_context ps st).2 := by
  unfold pop_context
  split
  · exact hInv
  · split
    · exact hInv
    · cases hstack : stackOf st (getParam ps "user_id") with
      | nil =>
        rename_i hguard
        rw [Bool.or_eq_true, not_or] at hguard
        exact absurd (by rw [hstack]; rfl) hguard.2
      | cons a t =>
        have hne : stackOf st (getParam ps "user_id") ≠ [] := by
          rw [hstack]
          simp
        exact inv_popTop _ _ _
          ((stackOf st (getParam ps "user_id")).dropLast_append_getLast hne).symm hInv

theorem inv_push_context (ps : JsonFields) {st : Store} (hInv : Inv st) :
    Inv (push_context ps st).2 := by
  unfold push_context
  split
  · exact hInv
  · split
    · exact hInv
    · exact inv_pushNew _ _ hInv

theorem inv_clear_contexts (ps : JsonFields) {st : Store} (hInv : Inv st) :
    Inv (clear_contexts ps st).2 := by
  unfold clear_contexts
  split
  · exact hInv
  · exact inv_clearUser _ hInv

theorem inv_handle (fn : String) (ps : JsonFields) {st : Store} (hInv : Inv st) :
    Inv (handle fn ps st).2 := by
  unfold handle
  split
  · exact inv_push_context ps hInv
  · split
    · exact inv_pop_context ps hInv
    · split
      · rw [list_contexts_state]
        exact hInv
      · split
        · rw [get_context_state]
          exact hInv
        · split
          · exact inv_clear_contexts ps hInv
          · exact hInv

theorem inv_reachable {st : Store} (h : Reachable st) : Inv st := by
  induction h with
  | base => exact inv_empty
  | step fn ps hst ih => exact inv_handle fn ps ih

theorem clear_contexts_eq (ps : JsonFields) (st : Store)
    (hu : (getParam ps "user_id").isTruthy = true) :
    clear_contexts ps st = (clearOk, clearUser (getParam ps "user_id") st) := by
  simp [clear_contexts, hu]

theorem clearUser_idem (u : Json) (st : Store) :
    clearUser u (clearUser u st) = clearUser u st := by
  by_cases h : dcontains st.contexts u = true
  · simp [clearUser, h, dcontains_dset_self, dset_dset_same]
  · simp only [Bool.not_eq_true] at h
    simp [clearUser, h]

theorem entriesFor_clearUser (u : Json) (st : Store)
    (hcu : dcontains st.contexts u = dcontains st.context_stacks u) :
    entriesFor (clearUser u st) u = [] := by
  by_cases h : dcontains st.contexts u = true
  · simp [clearUser, h, entriesFor, dcontains_dset_self, stackOf, dlookup_dset_self]
  · simp only [Bool.not_eq_true] at h
    have h2 : dcontains st.context_stacks u = false := by
      rw [← hcu]
      exact h
    simp [clearUser, h, entriesFor, h2]

theorem isErrorResp_pushOk (cid : String) : isErrorResp (pushOk cid) = false := rfl

theorem isErrorResp_popOk (cid : String) (c : Json) :
    isErrorResp (popOk cid c) = false := rfl

theorem isErrorResp_clearOk : isErrorResp clearOk = false := rfl

theorem isErrorResp_listResp (l : List Json) : isErrorResp (listResp l) = false := rfl

theorem push_context_err_state (ps : JsonFields) (st : Store)
    (h : isErrorResp (push_context ps st).1 = true) : (push_context ps st).2 = st := by
  by_cases h1 : (getParam ps "user_id").isTruthy = true
  · by_cases h2 : (getParam ps "context").isTruthy = true
    · rw [push_context_eq ps st h1 h2, pushNew_fst, isErrorResp_pushOk] at h
      exact absurd h (by simp)
    · simp only [Bool.not_eq_true] at h2
      simp [push_context, h1, h2]
  · simp only [Bool.not_eq_true] at h1
    simp [push_context, h1]

theorem pop_context_err_state (ps : JsonFields) (st : Store)
    (h : isErrorResp (pop_context ps st).1 = true) : (pop_context ps st).2 = st := by
  by_cases h1 : (getParam ps "user_id").isTruthy = true
  · by_cases hg : (!(dcontains st.context_stacks (getParam ps "user_id"))
        || (stackOf st (getParam ps "user_id")).isEmpty) = true
    · simp [pop_context, h1, hg]
    · have he : pop_context ps st = popTop (getParam ps "user_id") st := by
        simp only [Bool.not_eq_true] at hg
        simp [pop_context, h1, hg]
      rw [he] at h
      rw [show (popTop (getParam ps "user_id") st).1
          = popOk ((stackOf st (getParam ps "user_id")).getLast?.getD "")
              ((dlookup (innerOf st (getParam ps "user_id"))
                ((stackOf st (getParam ps "user_id")).getLast?.getD "")).getD .null) from rfl,
        isErrorResp_popOk] at h
      exact absurd h (by simp)
  · simp only [Bool.not_eq_true] at h1
    simp [pop_context, h1]

theorem clear_contexts_err_state (ps : JsonFields) (st : Store)
    (h : isErrorResp (clear_contexts ps st).1 = true) : (clear_contexts ps st).2 = st := by
  by_cases h1 : (getParam ps "user_id").isTruthy = true
  · rw [clear_contexts_eq ps st h1] at h
    rw [show (clearOk, clearUser (getParam ps "user_id") st).1 = clearOk from rfl,
      isErrorResp_clearOk] at h
    exact absurd h (by simp)
  · simp only [Bool.not_eq_true] at h1
    simp [clear_contexts, h1]

theorem entriesFor_pushNew (u c : Json) (st : Store)
    (hcu : dcontains st.contexts u = dcontains st.context_stacks u)
    (hfresh : ∀ cid ∈ stackOf st u, ∃ k, k < st.nextId ∧ cid = mkId k) :
    entriesFor (pushNew u c st).2 u = entriesFor st u
      ++ [Json.obj (.fcons "context_id" (.str (mkId st.nextId))
            (.fcons "context" c .nil))] := by
  have hcont2 : dcontains (pushNew u c st).2.context_stacks u = true := by
    simp [pushNew, dcontains_dset_self]
  rw [show entriesFor (pushNew u c st).2 u
      = (stackOf (pushNew u c st).2 u).map (fun cid =>
          Json.obj (.fcons "context_id" (.str cid)
            (.fcons "context" ((dlookup (innerOf (pushNew u c st).2 u) cid).getD .null) .nil)))
    from by unfold entriesFor; rw [if_pos hcont2]]
  rw [stackOf_pushNew_self, innerOf_pushNew_self,
    stackOf_pushInit_self u st hcu, innerOf_pushInit_self u st]
  rw [List.map_append]
  by_cases hsc : dcontains st.context_stacks u = true
  · rw [show entriesFor st u
        = (stackOf st u).map (fun cid =>
            Json.obj (.fcons "context_id" (.str cid)
              (.fcons "context" ((dlookup (innerOf st u) cid).getD .null) .nil)))
      from by unfold entriesFor; rw [if_pos hsc]]
    congr 1
    · apply List.map_congr_left
      intro cid hcid
      obtain ⟨k, hk, he⟩ := hfresh cid hcid
      have hne : cid ≠ mkId st.nextId := by
        rw [he]
        intro hEq
        have := mkId_inj hEq
        omega
      rw [dlookup_dset_ne _ _ hne]
    · simp [dlookup_dset_self]
  · have hsc' : dcontains st.context_stacks u = false := by
      simpa using hsc
    have hcc : dcontains st.contexts u = false := by
      rw [hcu]
      exact hsc'
    have hstEmpty : stackOf st u = [] := by
      simp [stackOf, dlookup_eq_none_of_not_contains hsc']
    rw [show entriesFor st u = [] from by unfold entriesFor; rw [hsc']; rfl]
    rw [hstEmpty]
    simp [dlookup_dset_self]

theorem push_step (u c : Json) (st : Store) (hu : u.isTruthy = true)
    (hc : c.isTruthy = true) :
    handle "push_context" (.fcons "user_id" u (.fcons "context" c .nil)) st
      = (pushOk (mkId st.nextId), (pushNew u c st).2) := by
  rw [handle_push,
    push_context_eq _ _ (by rw [getParam_uc_user]; exact hu)
      (by rw [getParam_uc_ctx]; exact hc),
    getParam_uc_user, getParam_uc_ctx]
  exact Prod.ext (pushNew_fst u c st) rfl

theorem pushNew_fresh (u c : Json) (st : Store)
    (hcu : dcontains st.contexts u = dcontains st.context_stacks u)
    (hfresh : ∀ cid ∈ stackOf st u, ∃ k, k < st.nextId ∧ cid = mkId k) :
    ∀ cid ∈ stackOf (pushNew u c st).2 u,
      ∃ k, k < (pushNew u c st).2.nextId ∧ cid = mkId k := by
  intro cid hmem
  rw [pushNew_nextId]
  rw [stackOf_pushNew_self, stackOf_pushInit_self u st hcu,
    List.mem_append, List.mem_singleton] at hmem
  rcases hmem with hm | hm
  · obtain ⟨k, hk, he⟩ := hfresh cid hm
    exact ⟨k, by omega, he⟩
  · exact ⟨st.nextId, by omega, hm⟩

theorem pushAll_entries (u : Json) (hu : u.isTruthy = true) (cs : List Json) :
    ∀ st : Store, (∀ c ∈ cs, c.isTruthy = true) →
      dcontains st.contexts u = dcontains st.context_stacks u →
      (∀ cid ∈ stackOf st u, ∃ k, k < st.nextId ∧ cid = mkId k) →
      entriesFor (pushAll u cs st) u
        = entriesFor st u ++ (List.enumFrom st.nextId cs).map
            (fun p => Json.obj (.fcons "context_id" (.str (mkId p.1))
              (.fcons "context" p.2 .nil))) := by
  induction cs with
  | nil =>
    intro st _ _ _
    simp [pushAll, List.enumFrom]
  | cons c rest ih =>
    intro st hcs hcu hfresh
    have hc : c.isTruthy = true := hcs c (by simp)
    have hstep := push_step u c st hu hc
    rw [show pushAll u (c :: rest) st
        = pushAll u rest
            (handle "push_context" (.fcons "user_id" u (.fcons "context" c .nil)) st).2
      from rfl]
    rw [hstep]
    rw [ih ((pushNew u c st).2) (fun c' hc' => hcs c' (by simp [hc']))
      (pushNew_contains_eq u c st u hcu) (pushNew_fresh u c st hcu hfresh)]
    rw [entriesFor_pushNew u c st hcu hfresh, pushNew_nextId]
    simp [List.enumFrom]

/-- C1: in every store state reachable from the empty store by dispatcher
requests, and for every user identifier, the order stack has no duplicate
identifiers, its elements are exactly the keys of the user context
dictionary, and a user is a key of the contexts dictionary exactly when
it is a key of the context_stacks dictionary. -/
theorem c1_store_invariant (st : Store) (h : Reachable st) (u : Json) :
    (stackOf st u).Nodup
    ∧ (∀ cid : String, cid ∈ stackOf st u ↔ cid ∈ dkeys (innerOf st u))
    ∧ (dcontains st.contexts u = true ↔ dcontains st.context_stacks u = true) := by
  obtain ⟨h1, h2, h3, h4, h5⟩ := inv_reachable h
  exact ⟨h1 u, fun cid => h2 u cid, by rw [h3 u]⟩

theorem c1_store_invariant_witness :
    Reachable ((handle "push_context"
      (.fcons "user_id" (.str "u1") (.fcons "context" (.str "a") .nil)) Store.empty).2)
    ∧ ((stackOf ((handle "push_context"
        (.fcons "user_id" (.str "u1") (.fcons "context" (.str "a") .nil))
          Store.empty).2) (.str "u1")).Nodup
      ∧ (∀ cid : String,
          cid ∈ stackOf ((handle "push_context"
            (.fcons "user_id" (.str "u1") (.fcons "context" (.str "a") .nil))
              Store.empty).2) (.str "u1")
          ↔ cid ∈ dkeys (innerOf ((handle "push_context"
              (.fcons "user_id" (.str "u1") (.fcons "context" (.str "a") .nil))
                Store.empty).2) (.str "u1")))
      ∧ (dcontains ((handle "push_context"
            (.fcons "user_id" (.str "u1") (.fcons "context" (.str "a") .nil))
              Store.empty).2).contexts (.str "u1") = true
          ↔ dcontains ((handle "push_context"
            (.fcons "user_id" (.str "u1") (.fcons "context" (.str "a") .nil))
              Store.empty).2).context_stacks (.str "u1") = true)) :=
  ⟨Reachable.step _ _ Reachable.base,
    c1_store_invariant _ (Reachable.step _ _ Reachable.base) _⟩

/-- C2: whenever a push for a user succeeds with identifier X, an
immediately following pop for that user succeeds and returns exactly the
pair of X and the pushed value. -/
theorem c2_push_then_pop (st : Store) (u c : Json) (x : String)
    (h : (handle "push_context" (.fcons "user_id" u (.fcons "context" c .nil)) st).1
      = pushOk x) :
    (handle "pop_context" (.fcons "user_id" u .nil)
      (handle "push_context" (.fcons "user_id" u (.fcons "context" c .nil)) st).2).1
      = popOk x c := by
  rw [handle_push] at h
  obtain ⟨hx, hnext, hu, hc⟩ := push_context_fst_pushOk h
  rw [getParam_uc_user] at hu
  rw [getParam_uc_ctx] at hc
  rw [push_step u c st hu hc]
  rw [show ((pushOk (mkId st.nextId), (pushNew u c st).2) : Json × Store).2
    = (pushNew u c st).2 from rfl]
  rw [handle_pop]
  have hs : stackOf (pushNew u c st).2 u
      = stackOf (pushInit u st) u ++ [mkId st.nextId] := stackOf_pushNew_self u c st
  rw [pop_context_success _ _ _ _ (by rw [getParam_u_user]; exact hu)
    (by rw [getParam_u_user]; exact hs)]
  rw [getParam_u_user]
  rw [popTop_eq _ _ _ _ hs]
  rw [show ((popOk (mkId st.nextId)
      ((dlookup (innerOf (pushNew u c st).2 u) (mkId st.nextId)).getD .null),
      { contexts := dset (pushNew u c st).2.contexts u
          (derase (innerOf (pushNew u c st).2 u) (mkId st.nextId)),
        context_stacks := dset (pushNew u c st).2.context_stacks u
          (stackOf (pushInit u st) u),
        nextId := (pushNew u c st).2.nextId }) : Json × Store).1
    = popOk (mkId st.nextId)
        ((dlookup (innerOf (pushNew u c st).2 u) (mkId st.nextId)).getD .null) from rfl]
  rw [innerOf_pushNew_self, dlookup_dset_self]
  rw [hx]
  rfl

theorem c2_push_then_pop_witness :
    ((handle "push_context"
        (.fcons "user_id" (.str "u1") (.fcons "context" (.str "a") .nil))
        Store.empty).1 = pushOk (mkId 0))
    ∧ (handle "pop_context" (.fcons "user_id" (.str "u1") .nil)
        (handle "push_context"
          (.fcons "user_id" (.str "u1") (.fcons "context" (.str "a") .nil))
          Store.empty).2).1 = popOk (mkId 0) (.str "a") :=
  ⟨by decide, c2_push_then_pop Store.empty (.str "u1") (.str "a") (mkId 0) (by decide)⟩

/-- C3: pushing any sequence of values for a user from the empty store and
then listing returns exactly the pushed pairs in push order, oldest first;
listing a user with no stack entry or an empty stack gives the empty
sequence; and list always returns a contexts envelope, never an error,
for a truthy user id. -/
theorem c3_list_contexts (u : Json) (cs : List Json) (st : Store)
    (hu : u.isTruthy = true) :
    ((∀ c ∈ cs, c.isTruthy = true) →
      (handle "list_contexts" (.fcons "user_id" u .nil)
          (pushAll u cs Store.empty)).1
        = listResp (cs.enum.map (fun p =>
            Json.obj (.fcons "context_id" (.str (mkId p.1))
              (.fcons "context" p.2 .nil)))))
    ∧ ((dcontains st.context_stacks u = false ∨ stackOf st u = []) →
      (handle "list_contexts" (.fcons "user_id" u .nil) st).1 = listResp [])
    ∧ (∃ entries, (handle "list_contexts" (.fcons "user_id" u .nil) st).1
        = listResp entries) := by
  have hu' : (getParam (.fcons "user_id" u .nil) "user_id").isTruthy = true := by
    rw [getParam_u_user]
    exact hu
  refine ⟨?_, ?_, ?_⟩
  · intro hcs
    rw [handle_list, list_contexts_eq _ _ hu', getParam_u_user]
    rw [pushAll_entries u hu cs Store.empty hcs rfl
      (by intro cid hmem; simp [stackOf, Store.empty, dlookup] at hmem)]
    rw [show entriesFor Store.empty u = [] from by
      simp [entriesFor, dcontains, dlookup, Store.empty]]
    rw [List.enum_eq_enumFrom]
    rfl
  · intro h
    rw [handle_list, list_contexts_eq _ _ hu', getParam_u_user]
    suffices hE : entriesFor st u = [] by rw [hE]
    rcases h with h | h
    · simp [entriesFor, h]
    · by_cases hc : dcontains st.context_stacks u = true
      · simp [entriesFor, hc, h]
      · simp only [Bool.not_eq_true] at hc
        simp [entriesFor, hc]
  · refine ⟨entriesFor st u, ?_⟩
    rw [handle_list, list_contexts_eq _ _ hu', getParam_u_user]

theorem c3_list_contexts_witness :
    ((Json.str "u1").isTruthy = true)
    ∧ (handle "list_contexts" (.fcons "user_id" (.str "u1") .nil)
        (pushAll (.str "u1") [.str "a", .str "b"] Store.empty)).1
      = listResp (([.str "a", .str "b"] : List Json).enum.map (fun p =>
          Json.obj (.fcons "context_id" (.str (mkId p.1))
            (.fcons "context" p.2 .nil)))) :=
  ⟨by decide,
    (c3_list_contexts (.str "u1") [.str "a", .str "b"] Store.empty (by decide)).1
      (by decide)⟩

/-- C4 counterexample: pushing the empty JSON object, a non-null value,
with a valid user id from the empty store is rejected with the context
validation error and leaves the store unchanged, although the claim
asserts that every non-null value, including the empty object, is
accepted; the Python guard `if not context_data` rejects every falsy
value, not only absent or null ones. -/
theorem c4_counterexample :
    handle "push_context"
      (.fcons "user_id" (.str "u1") (.fcons "context" (.obj .nil) .nil))
      Store.empty
      = (errResp "context parameter is required", Store.empty)
    ∧ isErrorResp (handle "push_context"
        (.fcons "user_id" (.str "u1") (.fcons "context" (.obj .nil) .nil))
        Store.empty).1 = true :=
  ⟨by decide, by decide⟩

/-- C4 (amended): for a push with a truthy user id, the operation fails
with the context validation error exactly when the context parameter is
falsy by Python truthiness (absent, null, false, zero, the empty string,
the empty array or the empty object); for every truthy value the push
succeeds, stores the value unmodified under a freshly generated
identifier appended to the order stack, and returns that identifier with
a success marker. The store-consistency hypothesis holds in every
reachable state. -/
theorem c4_push_validation (st : Store) (u c : Json) (hu : u.isTruthy = true)
    (hcu : dcontains st.contexts u = dcontains st.context_stacks u) :
    (c.isTruthy = false →
      handle "push_context" (.fcons "user_id" u (.fcons "context" c .nil)) st
        = (errResp "context parameter is required", st))
    ∧ (c.isTruthy = true →
      (handle "push_context" (.fcons "user_id" u (.fcons "context" c .nil)) st).1
          = pushOk (mkId st.nextId)
      ∧ stackOf (handle "push_context"
          (.fcons "user_id" u (.fcons "context" c .nil)) st).2 u
          = stackOf st u ++ [mkId st.nextId]
      ∧ dlookup (innerOf (handle "push_context"
          (.fcons "user_id" u (.fcons "context" c .nil)) st).2 u)
          (mkId st.nextId) = some c) := by
  constructor
  · intro hc
    rw [handle_push]
    simp [push_context, getParam_uc_user, getParam_uc_ctx, hu, hc]
  · intro hc
    rw [push_step u c st hu hc]
    refine ⟨rfl, ?_, ?_⟩
    · rw [show ((pushOk (mkId st.nextId), (pushNew u c st).2) : Json × Store).2
        = (pushNew u c st).2 from rfl]
      rw [stackOf_pushNew_self, stackOf_pushInit_self u st hcu]
    · rw [show ((pushOk (mkId st.nextId), (pushNew u c st).2) : Json × Store).2
        = (pushNew u c st).2 from rfl]
      rw [innerOf_pushNew_self, dlookup_dset_self]

theorem c4_push_validation_witness :
    ((Json.str "u1").isTruthy = true)
    ∧ (dcontains Store.empty.contexts (.str "u1")
        = dcontains Store.empty.context_stacks (.str "u1"))
    ∧ ((handle "push_context"
        (.fcons "user_id" (.str "u1") (.fcons "context" (.str "a") .nil))
        Store.empty).1 = pushOk (mkId 0)) :=
  ⟨by decide, rfl,
    ((c4_push_validation Store.empty (.str "u1") (.str "a") (by decide) rfl).2
      (by decide)).1⟩

/-- C5: pop with a truthy user id fails with the empty-stack error
envelope exactly when the user has no stack entry or an empty stack,
leaving the store unchanged, and otherwise removes and returns the last
element of order with its stored value; get with truthy user and context
ids fails with the not-found envelope exactly when the user is unknown or
the identifier is not a key of the user dictionary, and otherwise
returns the stored value without error, leaving the store unchanged. -/
theorem c5_pop_get (st : Store) (u cid : Json) (hu : u.isTruthy = true) :
    ((dcontains st.context_stacks u = false ∨ stackOf st u = []) →
      handle "pop_context" (.fcons "user_id" u .nil) st
        = (errRespF "No contexts to pop", st))
    ∧ (∀ (s : List String) (x : String), stackOf st u = s ++ [x] →
      handle "pop_context" (.fcons "user_id" u .nil) st
        = (popOk x ((dlookup (innerOf st u) x).getD .null),
           { contexts := dset st.contexts u (derase (innerOf st u) x),
             context_stacks := dset st.context_stacks u s,
             nextId := st.nextId }))
    ∧ (cid.isTruthy = true →
      ((dcontains st.contexts u = false ∨ jlookup (innerOf st u) cid = none) →
        handle "get_context" (.fcons "user_id" u (.fcons "context_id" cid .nil)) st
          = (notFoundResp cid u, st))
      ∧ (∀ v : Json, jlookup (innerOf st u) cid = some v →
        handle "get_context" (.fcons "user_id" u (.fcons "context_id" cid .nil)) st
          = (getOk cid v, st))) := by
  refine ⟨?_, ?_, ?_⟩
  · intro h
    rw [handle_pop]
    exact pop_context_empty _ _ (by rw [getParam_u_user]; exact hu)
      (by rw [getParam_u_user]; exact h)
  · intro s x hs
    rw [handle_pop]
    rw [pop_context_success _ _ s x (by rw [getParam_u_user]; exact hu)
      (by rw [getParam_u_user]; exact hs)]
    rw [getParam_u_user]
    exact popTop_eq u st s x hs
  · intro hcid
    constructor
    · intro h
      rw [handle_get]
      rcases h with h | h
      · simp [get_context, getParam_ucid_user, getParam_ucid_cid, hu, hcid, h,
          notFoundResp]
      · simp [get_context, getParam_ucid_user, getParam_ucid_cid, hu, hcid, h,
          notFoundResp]
    · intro v h
      have hcc : dcontains st.contexts u = true := innerOf_contains_of_jlookup h
      rw [handle_get]
      simp [get_context, getParam_ucid_user, getParam_ucid_cid, hu, hcid, hcc, h,
        getOk]

theorem c5_pop_get_witness :
    ((Json.str "u1").isTruthy = true)
    ∧ (handle "pop_context" (.fcons "user_id" (.str "u1") .nil) Store.empty
        = (errRespF "No contexts to pop", Store.empty)) :=
  ⟨by decide,
    (c5_pop_get Store.empty (.str "u1") (.str "x") (by decide)).1 (Or.inl rfl)⟩

/-- C6: clear with a truthy user id reports success even for a user never
seen, clearing twice produces the same state as clearing once, and a
clear followed by a list yields the empty sequence. The
store-consistency hypothesis holds in every reachable state. -/
theorem c6_clear (st : Store) (u : Json) (hu : u.isTruthy = true)
    (hcu : dcontains st.contexts u = dcontains st.context_stacks u) :
    (handle "clear_contexts" (.fcons "user_id" u .nil) st).1 = clearOk
    ∧ (handle "clear_contexts" (.fcons "user_id" u .nil)
        (handle "clear_contexts" (.fcons "user_id" u .nil) st).2).2
      = (handle "clear_contexts" (.fcons "user_id" u .nil) st).2
    ∧ (handle "list_contexts" (.fcons "user_id" u .nil)
        (handle "clear_contexts" (.fcons "user_id" u .nil) st).2).1 = listResp [] := by
  have hu' : (getParam (.fcons "user_id" u .nil) "user_id").isTruthy = true := by
    rw [getParam_u_user]
    exact hu
  have hc := clear_contexts_eq (.fcons "user_id" u .nil) st hu'
  refine ⟨?_, ?_, ?_⟩
  · rw [handle_clear, hc]
  · rw [handle_clear, handle_clear, hc]
    rw [show (clearOk, clearUser (getParam (.fcons "user_id" u .nil) "user_id") st).2
      = clearUser (getParam (.fcons "user_id" u .nil) "user_id") st from rfl]
    rw [clear_contexts_eq _ _ hu']
    rw [getParam_u_user]
    exact clearUser_idem u st
  · rw [handle_clear, hc, handle_list]
    rw [show (clearOk, clearUser (getParam (.fcons "user_id" u .nil) "user_id") st).2
      = clearUser (getParam (.fcons "user_id" u .nil) "user_id") st from rfl]
    rw [list_contexts_eq _ _ hu', getParam_u_user]
    rw [entriesFor_clearUser u st hcu]

theorem c6_clear_witness :
    ((Json.str "u9").isTruthy = true)
    ∧ (dcontains Store.empty.contexts (.str "u9")
        = dcontains Store.empty.context_stacks (.str "u9"))
    ∧ (handle "clear_contexts" (.fcons "user_id" (.str "u9") .nil) Store.empty).1
        = clearOk
    ∧ (handle "list_contexts" (.fcons "user_id" (.str "u9") .nil)
        (handle "clear_contexts" (.fcons "user_id" (.str "u9") .nil) Store.empty).2).1
        = listResp [] :=
  ⟨by decide, rfl,
    (c6_clear Store.empty (.str "u9") (by decide) rfl).1,
    (c6_clear Store.empty (.str "u9") (by decide) rfl).2.2⟩

/-- C7: identifiers are never reused: if a push returns identifier x and a
later push, after any further sequence of requests including clears and
requests of other users, returns identifier y, then x and y differ; in
particular N pushes yield N pairwise distinct identifiers and a push
after a clear avoids every earlier identifier. -/
theorem c7_ids_never_reused (st : Store) (ps1 ps2 : JsonFields)
    (mid : List (String × JsonFields)) (x y : String)
    (h1 : (handle "push_context" ps1 st).1 = pushOk x)
    (h2 : (handle "push_context" ps2
        (run mid (handle "push_context" ps1 st).2)).1 = pushOk y) :
    x ≠ y := by
  rw [handle_push ps1 st] at h1 h2
  rw [handle_push ps2 (run mid (push_context ps1 st).2)] at h2
  obtain ⟨hx, hn1, _, _⟩ := push_context_fst_pushOk h1
  obtain ⟨hy, _, _, _⟩ := push_context_fst_pushOk h2
  have hmono := run_nextId_le mid (push_context ps1 st).2
  rw [hn1] at hmono
  rw [hx, hy]
  intro hEq
  have := mkId_inj hEq
  omega

theorem c7_ids_never_reused_witness :
    ((handle "push_context"
        (.fcons "user_id" (.str "u1") (.fcons "context" (.str "a") .nil))
        Store.empty).1 = pushOk (mkId 0))
    ∧ ((handle "push_context"
        (.fcons "user_id" (.str "u1") (.fcons "context" (.str "b") .nil))
        (run [("clear_contexts", .fcons "user_id" (.str "u1") .nil)]
          (handle "push_context"
            (.fcons "user_id" (.str "u1") (.fcons "context" (.str "a") .nil))
            Store.empty).2)).1 = pushOk (mkId 1))
    ∧ mkId 0 ≠ mkId 1 :=
  ⟨by decide, by decide,
    c7_ids_never_reused Store.empty
      (.fcons "user_id" (.str "u1") (.fcons "context" (.str "a") .nil))
      (.fcons "user_id" (.str "u1") (.fcons "context" (.str "b") .nil))
      [("clear_contexts", .fcons "user_id" (.str "u1") .nil)]
      (mkId 0) (mkId 1) (by decide) (by decide)⟩

/-- C8: the dispatcher recognizes exactly the five function names, every
other name yields the unsupported-function envelope naming the function
with the store unchanged, and for each recognized function an absent or
empty required string parameter yields the parameter-required envelope
naming the field with the store unchanged. -/
theorem c8_dispatcher :
    (∀ fn : String, fn ∉ (["push_context", "pop_context", "list_contexts",
        "get_context", "clear_contexts"] : List String) →
      ∀ (ps : JsonFields) (st : Store),
        handle fn ps st = (errResp ("Function " ++ fn ++ " not supported"), st))
    ∧ (∀ fn ∈ (["push_context", "pop_context", "list_contexts",
        "get_context", "clear_contexts"] : List String),
        ∀ (ps : JsonFields) (st : Store),
        (getParam ps "user_id" = .null ∨ getParam ps "user_id" = .str "") →
        handle fn ps st = (errResp "user_id parameter is required", st))
    ∧ (∀ (ps : JsonFields) (st : Store), (getParam ps "user_id").isTruthy = true →
        (getParam ps "context_id" = .null ∨ getParam ps "context_id" = .str "") →
        handle "get_context" ps st
          = (errResp "context_id parameter is required", st))
    ∧ (∀ (ps : JsonFields) (st : Store), (getParam ps "user_id").isTruthy = true →
        (getParam ps "context" = .null ∨ getParam ps "context" = .str "") →
        handle "push_context" ps st
          = (errResp "context parameter is required", st)) := by
  refine ⟨?_, ?_, ?_, ?_⟩
  · intro fn h ps st
    simp only [List.mem_cons, List.not_mem_nil, or_false, not_or] at h
    obtain ⟨ha, hb, hc, hd, he⟩ := h
    unfold handle
    rw [if_neg ha, if_neg hb, if_neg hc, if_neg hd, if_neg he]
  · intro fn hfn ps st hp
    have hfalse : (getParam ps "user_id").isTruthy = false := by
      rcases hp with h | h <;> rw [h] <;> rfl
    simp only [List.mem_cons, List.not_mem_nil, or_false] at hfn
    rcases hfn with rfl | rfl | rfl | rfl | rfl
    · rw [handle_push]
      simp [push_context, hfalse]
    · rw [handle_pop]
      simp [pop_context, hfalse]
    · rw [handle_list]
      simp [list_contexts, hfalse]
    · rw [handle_get]
      simp [get_context, hfalse]
    · rw [handle_clear]
      simp [clear_contexts, hfalse]
  · intro ps st hu hp
    have hfalse : (getParam ps "context_id").isTruthy = false := by
      rcases hp with h | h <;> rw [h] <;> rfl
    rw [handle_get]
    simp [get_context, hu, hfalse]
  · intro ps st hu hp
    have hfalse : (getParam ps "context").isTruthy = false := by
      rcases hp with h | h <;> rw [h] <;> rfl
    rw [handle_push]
    simp [push_context, hu, hfalse]

theorem c8_dispatcher_witness :
    ("frobnicate" ∉ (["push_context", "pop_context", "list_contexts",
        "get_context", "clear_contexts"] : List String))
    ∧ handle "frobnicate" .nil Store.empty
        = (errResp ("Function " ++ "frobnicate" ++ " not supported"), Store.empty) :=
  ⟨by decide, c8_dispatcher.1 "frobnicate" (by decide) .nil Store.empty⟩

/-- C9: the store changes only through a successful push, pop or clear:
list and get leave the store unchanged in every case, every request whose
result is an error envelope leaves the store exactly as it was, and a
malformed request body yields the invalid-JSON envelope with the store
unchanged. -/
theorem c9_frame :
    (∀ (ps : JsonFields) (st : Store), (handle "list_contexts" ps st).2 = st)
    ∧ (∀ (ps : JsonFields) (st : Store), (handle "get_context" ps st).2 = st)
    ∧ (∀ (fn : String) (ps : JsonFields) (st : Store),
        isErrorResp (handle fn ps st).1 = true → (handle fn ps st).2 = st)
    ∧ (∀ (fn : String) (st : Store),
        handle_mcp_request fn none st
          = (errResp "Invalid JSON in request body", st)) := by
  refine ⟨?_, ?_, ?_, ?_⟩
  · intro ps st
    rw [handle_list]
    exact list_contexts_state ps st
  · intro ps st
    rw [handle_get]
    exact get_context_state ps st
  · intro fn ps st h
    by_cases h1 : fn = "push_context"
    · subst h1
      rw [handle_push] at h ⊢
      exact push_context_err_state ps st h
    · by_cases h2 : fn = "pop_context"
      · subst h2
        rw [handle_pop] at h ⊢
        exact pop_context_err_state ps st h
      · by_cases h3 : fn = "list_contexts"
        · subst h3
          rw [handle_list]
          exact list_contexts_state ps st
        · by_cases h4 : fn = "get_context"
          · subst h4
            rw [handle_get]
            exact get_context_state ps st
          · by_cases h5 : fn = "clear_contexts"
            · subst h5
              rw [handle_clear] at h ⊢
              exact clear_contexts_err_state ps st h
            · unfold handle
              rw [if_neg h1, if_neg h2, if_neg h3, if_neg h4, if_neg h5]
  · intro fn st
    rfl

theorem c9_frame_witness :
    isErrorResp (handle "pop_context" (.fcons "user_id" (.str "u1") .nil)
        Store.empty).1 = true
    ∧ (handle "pop_context" (.fcons "user_id" (.str "u1") .nil) Store.empty).2
        = Store.empty :=
  ⟨by decide,
    c9_frame.2.2.1 "pop_context" (.fcons "user_id" (.str "u1") .nil) Store.empty
      (by decide)⟩

/-- C10: for every inbound header dict, whose names are lower-cased by
the ASGI server and unique as dict keys, the header map the relay
forwards upstream contains no authorization header under any casing of
the name, every other inbound header survives, and the body and the
mcp endpoint path are forwarded verbatim. -/
theorem c10_relay_strips_auth (upstreamUrl endpoint : String)
    (hs : List (String × String)) (body : String)
    (hlower : ∀ p ∈ hs, lowerStr p.1 = p.1)
    (hnodup : (dkeys hs).Nodup) :
    (∀ p ∈ (proxy upstreamUrl endpoint hs body).headers,
      lowerStr p.1 ≠ "authorization")
    ∧ (∀ p ∈ hs, lowerStr p.1 ≠ "authorization"
        → p ∈ (proxy upstreamUrl endpoint hs body).headers)
    ∧ (proxy upstreamUrl endpoint hs body).body = body
    ∧ (proxy upstreamUrl endpoint hs body).url = upstreamUrl ++ "/mcp/" ++ endpoint := by
  refine ⟨?_, ?_, rfl, rfl⟩
  · intro p hp hlow
    have hp1 : p ∈ derase hs "authorization" := mem_of_mem_derase hp
    have hmem : p ∈ hs := mem_of_mem_derase hp1
    have heq : p.1 = "authorization" := by
      rw [← hlower p hmem]
      exact hlow
    have hk : p.1 ∈ dkeys (derase hs "authorization") :=
      List.mem_map_of_mem Prod.fst hp1
    rw [mem_dkeys_derase hnodup] at hk
    exact hk.2 heq
  · intro p hp hlow
    have h1 : p.1 ≠ "authorization" := by
      intro he
      apply hlow
      rw [he]
      decide
    have h2 : p.1 ≠ "Authorization" := by
      intro he
      have hlp := hlower p hp
      rw [he] at hlp
      exact absurd hlp (by decide)
    exact mem_derase_of_ne (mem_derase_of_ne hp h1) h2

theorem c10_relay_strips_auth_witness :
    ((("content-type", "application/json")
        ∈ (proxy "https://context7-mcp.fly.dev" "push_context"
            [("content-type", "application/json"), ("authorization", "Bearer t")]
            "x").headers)
    ∧ (proxy "https://context7-mcp.fly.dev" "push_context"
        [("content-type", "application/json"), ("authorization", "Bearer t")]
        "x").body = "x") :=
  ⟨(c10_relay_strips_auth "https://context7-mcp.fly.dev" "push_context"
      [("content-type", "application/json"), ("authorization", "Bearer t")] "x"
      (by decide) (by decide)).2.1 _ (by decide) (by decide),
    (c10_relay_strips_auth "https://context7-mcp.fly.dev" "push_context"
      [("content-type", "application/json"), ("authorization", "Bearer t")] "x"
      (by decide) (by decide)).2.2.1⟩

end Context7
